import Mathlib

/-!
Verification development for the status-report generator: a shallow embedding
of the message-parsing, aggregation, categorization and report-formatting
pipeline (message_parser.py, report_generator.py), with theorems settling the
frozen specification claims.

Modelling conventions:
* Python strings are modelled as `List Char` (`Str`).  Python `str.lower` is
  modelled as ASCII lowercasing (the inputs handled by the program are ASCII
  apart from the literal pattern characters below, which have no uppercase
  forms the code could meet).
* The source file is double-encoded UTF-8 ("mojibake"): the bullet character
  of the original regexes appears in the file as the three characters
  U+00E2 U+20AC U+00A2, the checkmark emoji as U+00E2 U+0153 U+2026, and so
  on.  The embedding reproduces the characters that are literally in the
  file, since that is what the Python regex engine is given.
* Python `datetime` values are modelled by `PyDateTime`: an ordinal used for
  `min`/`max` comparisons plus the pre-rendered `strftime` strings the
  generator interpolates.  `datetime.now()` becomes an explicit parameter.
* Python `dict` (insertion ordered, unique keys) is modelled by an
  association list; `list(set(...))`, whose iteration order CPython leaves
  unspecified, is modelled as first-occurrence deduplication (no claim
  depends on that order).
* Each regex of the source is an alternation of literals with trivially
  deterministic greedy structure; the embedding compiles it to a direct
  scanner, with the reasoning recorded at the definition.
-/

namespace ReportGen

/-- Python strings, modelled as lists of characters. -/
abbrev Str := List Char

/-- The characters of Python `\s` (`str.strip()` whitespace) restricted to
ASCII: space, tab, newline, carriage return, vertical tab, form feed. -/
def isPySpace (c : Char) : Bool :=
  c = ' ' || c = '\t' || c = '\n' || c = '\r' || c = Char.ofNat 11 || c = Char.ofNat 12

/-- ASCII uppercase letter, the `[A-Z]` class. -/
def isAsciiUpper (c : Char) : Bool := 'A' ≤ c && c ≤ 'Z'

/-- ASCII letter, the `[A-Za-z]` class. -/
def isAsciiLetter (c : Char) : Bool := ('A' ≤ c && c ≤ 'Z') || ('a' ≤ c && c ≤ 'z')

/-- Python `str.lower()` (ASCII fragment). -/
def toLowerPy (cs : Str) : Str := cs.map Char.toLower

/-- Python `str.strip()`: drop leading and trailing whitespace. -/
def pyStrip (cs : Str) : Str :=
  ((cs.dropWhile isPySpace).reverse.dropWhile isPySpace).reverse

/-- Python `needle in hay` on strings: contiguous-substring test. -/
def listContains : Str → Str → Bool
  | [], n => n.isPrefixOf []
  | c :: rest, n => n.isPrefixOf (c :: rest) || listContains rest n

/-- Python `text.split("\n")`. -/
def splitNl : Str → List Str
  | [] => [[]]
  | '\n' :: rest => [] :: splitNl rest
  | c :: rest =>
    match splitNl rest with
    | [] => [[c]]
    | h :: t => (c :: h) :: t

/-- Python truth-to-int coercion used by `sum([...])` over booleans. -/
def bNat (b : Bool) : Nat := if b then 1 else 0

/-- Join a list of strings with a separator (Python `sep.join(...)`). -/
def joinSep (sep : Str) : List Str → Str
  | [] => []
  | [x] => x
  | x :: rest => x ++ sep ++ joinSep sep rest

/-- Python `"\n".join(...)`. -/
def joinNl (ls : List Str) : Str := joinSep ['\n'] ls

/-! ### Characters of the (mojibake) source literals -/

/-- U+00E2, first char of the double-encoded bullet in the source regexes. -/
def chA : Char := Char.ofNat 0xE2

/-- U+20AC, second char of the double-encoded bullet. -/
def chEuro : Char := Char.ofNat 0x20AC

/-- U+00A2, third char of the double-encoded bullet. -/
def chCent : Char := Char.ofNat 0xA2

/-- U+0153, from the double-encoded checkmark emoji. -/
def chOe : Char := Char.ofNat 0x153

/-- U+2026, from the double-encoded checkmark emoji. -/
def chEll : Char := Char.ofNat 0x2026

/-- U+00F0, first char of the double-encoded cycle/clipboard/no-entry emoji. -/
def chEth : Char := Char.ofNat 0xF0

/-- U+0178, second char of the double-encoded cycle/clipboard/no-entry emoji. -/
def chYum : Char := Char.ofNat 0x178

/-- U+201D, right double quotation mark. -/
def chRdq : Char := Char.ofNat 0x201D

/-- U+201C, left double quotation mark. -/
def chLdq : Char := Char.ofNat 0x201C

/-- U+201E, double low quotation mark. -/
def chDlq : Char := Char.ofNat 0x201E

/-- U+2039, single left angle quotation mark. -/
def chAng : Char := Char.ofNat 0x2039

/-- U+0161, s with caron. -/
def chSca : Char := Char.ofNat 0x161

/-- U+00AB, left guillemet. -/
def chGui : Char := Char.ofNat 0xAB

/-- ASCII apostrophe (occurs in one source header alternative). -/
def chApos : Char := Char.ofNat 39

/-! ### Data model (message_parser.py dataclasses) -/

/-- `TaskStatus` enum of message_parser.py. -/
inductive TaskStatus where
  | done
  | in_progress
  | planned
  | blocked
deriving DecidableEq, Repr

/-- `Task` dataclass of message_parser.py. -/
structure Task where
  description : Str
  assignee : Str
  status : TaskStatus
  ticket_id : Option Str := none
  pr_number : Option Str := none
deriving DecidableEq, Repr

/-- Python `datetime`: an ordinal for comparisons, plus the pre-rendered
`strftime` outputs the report generator interpolates. -/
structure PyDateTime where
  ord : Nat := 0
  fmtMonthDay : Str := []
  fmtMonthDayYear : Str := []
  fmtHeaderNow : Str := []
  fmtEmptyNow : Str := []
deriving DecidableEq, Repr

/-- `DailyStatus` dataclass of message_parser.py. -/
structure DailyStatus where
  author : Str
  date : PyDateTime
  done : List Task := []
  in_progress : List Task := []
  planned : List Task := []
  blockers : List Str := []
  notes : List Str := []
  raw_text : Str := []
deriving DecidableEq, Repr

/-- The fields of `SlackMessage` (slack_client.py) consumed by the parser. -/
structure SlackMessage where
  user_name : Str
  text : Str
  timestamp : PyDateTime
deriving DecidableEq, Repr

/-! ### Classifier (`MessageParser.is_status_update`) -/

/-- The keyword list of `is_status_update`. -/
def sectionKeywords : List Str :=
  ["done", "completed", "in progress", "working on", "blocked",
   "next", "planned", "today", "yesterday"].map String.toList

/-- Signal 1: lowercased text contains at least two of the section keywords. -/
def hasSections (text : Str) : Bool :=
  decide (2 ≤ sectionKeywords.countP (fun kw => listContains (toLowerPy text) kw))

/-- The character class `[-â€¢*\d.]` of the list-indicator regex, with the
mojibake characters that are literally in the source file. -/
def listSigChar (c : Char) : Bool :=
  c = '-' || c = chA || c = chEuro || c = chCent || c = '*' || c.isDigit || c = '.'

/-- Matching `\s*[-â€¢*\d.]\s+` at a position: a maximal whitespace run, a
class character, then at least one whitespace character.  (No backtracking is
possible: no class character is whitespace.) -/
def bulletSigAt (s : Str) : Bool :=
  match s.dropWhile isPySpace with
  | c :: d :: _ => listSigChar c && isPySpace d
  | _ => false

/-- Searching `(?:^|\n)\s*[-â€¢*\d.]\s+` at positions following a newline. -/
def bulletSigAfterNl : Str → Bool
  | [] => false
  | c :: rest => (c = '\n' && bulletSigAt rest) || bulletSigAfterNl rest

/-- Signal 2 of `is_status_update`: `re.search(r"(?:^|\n)\s*[-â€¢*\d.]\s+", text)`.
The anchor alternation admits position 0 (`^`, no MULTILINE flag) or any
newline character. -/
def hasLists (text : Str) : Bool := bulletSigAt text || bulletSigAfterNl text

/-- Matching `[A-Z]+-\d+` at a position.  The greedy upper-case run is forced:
a shorter run would be followed by an uppercase letter, not `-`, so a match at
this position exists iff the maximal run is nonempty and is followed by `-`
and a digit. -/
def ticketAt (s : Str) : Bool :=
  match s.span isAsciiUpper with
  | (us, rest) =>
    match rest with
    | d0 :: d1 :: _ => !us.isEmpty && decide (d0 = '-') && d1.isDigit
    | _ => false

/-- `re.search` of `TICKET_PATTERN = r"([A-Z]+-\d+)"` as a boolean. -/
def ticketSearch : Str → Bool
  | [] => false
  | c :: rest => ticketAt (c :: rest) || ticketSearch rest

/-- `MessageParser.is_status_update`: score four independent signals and
classify iff the score is at least 2. -/
def is_status_update (text : Str) : Bool :=
  decide (2 ≤ bNat (hasSections text) + bNat (hasLists text) +
      bNat (ticketSearch text) + bNat (decide (100 < text.length)))

/-! ### Section splitter (`MessageParser._split_into_sections`) -/

/-- Section key `"done"`. -/
def doneKey : Str := "done".toList

/-- Section key `"in_progress"`. -/
def inProgressKey : Str := "in_progress".toList

/-- Section key `"planned"`. -/
def plannedKey : Str := "planned".toList

/-- Section key `"blockers"`. -/
def blockersKey : Str := "blockers".toList

/-- `SECTION_PATTERNS`: per section (in dict insertion order) an ordered list
of patterns, each pattern an alternation of literals.  Every source pattern
has the shape `(?:lit|…)[\s:]*` (or a single literal followed by `[\s:]*`),
matched with `.match` against the lowercased stripped line, so it succeeds
iff some literal alternative is a prefix of that line. -/
def sectionPatterns : List (Str × List (List Str)) :=
  [ (doneKey,
      [ ["done", "completed", "finished", "accomplished"].map String.toList,
        ["what i did".toList,
         "what i".toList ++ [chApos] ++ "ve done".toList,
         "yesterday".toList, "today i did".toList],
        [[chA, chOe, chEll]] ]),
    (inProgressKey,
      [ ["in progress", "working on", "currently", "ongoing"].map String.toList,
        ["today", "doing today", "working today"].map String.toList,
        [[chEth, chYum, chRdq, chDlq]] ]),
    (plannedKey,
      [ ["planned", "next", "tomorrow", "will do", "planning to"].map String.toList,
        ["next steps", "upcoming", "goals"].map String.toList,
        [[chEth, chYum, chLdq, chAng]] ]),
    (blockersKey,
      [ ["blocked", "blockers", "issues", "problems", "stuck"].map String.toList,
        ["need help", "questions", "concerns"].map String.toList,
        [[chEth, chYum, chSca, chGui]],
        [[chA, chLdq]] ]) ]

/-- One compiled pattern matches the line iff some alternative is a prefix. -/
def patMatches (pat : List Str) (line : Str) : Bool :=
  pat.any (fun alt => alt.isPrefixOf line)

/-- Detect whether a line is a section header: lowercase and strip the line,
then return the first section (in `SECTION_PATTERNS` order) one of whose
patterns matches at the start of the line. -/
def detectSection (line : Str) : Option Str :=
  let ll := pyStrip (toLowerPy line)
  (sectionPatterns.find? (fun sp => sp.2.any (fun p => patMatches p ll))).map (·.1)

/-- Insert/overwrite a key in an association list (Python dict assignment):
replace the value at the existing key, else append a new entry. -/
def setA : List (Str × Str) → Str → Str → List (Str × Str)
  | [], k, v => [(k, v)]
  | (k', v') :: rest, k, v =>
    if k' = k then (k, v) :: rest else (k', v') :: setA rest k v

/-- Association-list lookup (Python dict access). -/
def lookupA {α : Type} : List (Str × α) → Str → Option α
  | [], _ => none
  | (k', v) :: rest, k => if k' = k then some v else lookupA rest k

/-- The line loop of `_split_into_sections`: `secs` is the dict built so far,
`cur` the current section, `acc` the accumulated content lines.  A header
line flushes the accumulated content (only when nonempty) and restarts
collection; a non-header line is collected only under a current section; the
final flush happens at end of input. -/
def splitGo : List (Str × Str) → Option Str → List Str → List Str → List (Str × Str)
  | secs, cur, acc, [] =>
    (match cur with
     | some s => if acc.isEmpty then secs else setA secs s (joinNl acc)
     | none => secs)
  | secs, cur, acc, line :: rest =>
    match detectSection line with
    | some s2 =>
      let secs' :=
        match cur with
        | some s => if acc.isEmpty then secs else setA secs s (joinNl acc)
        | none => secs
      splitGo secs' (some s2) [] rest
    | none =>
      match cur with
      | some _ => splitGo secs cur (acc ++ [line]) rest
      | none => splitGo secs cur acc rest

/-- `MessageParser._split_into_sections`. -/
def split_into_sections (text : Str) : List (Str × Str) :=
  splitGo [] none [] (splitNl text)

/-! ### Item extractor (`MessageParser._parse_tasks`) -/

/-- The bullet class `[-â€¢*]` of the item-splitting regex (mojibake chars as
in the source). -/
def bulletChar (c : Char) : Bool :=
  c = '-' || c = chA || c = chEuro || c = chCent || c = '*'

/-- Match `\s*[-â€¢*]\s*` (the tail of split alternative 1) at a position,
returning the rest of the input.  Deterministic: bullet chars are not
whitespace. -/
def matchBullet (s : Str) : Option Str :=
  match s.dropWhile isPySpace with
  | c :: rest => if bulletChar c then some (rest.dropWhile isPySpace) else none
  | [] => none

/-- Match `\s*\d+\.\s*` (the tail of split alternative 2, after its `\n`) at a
position, returning the rest.  Deterministic: digits are not whitespace and
`.` is not a digit. -/
def matchNum (s : Str) : Option Str :=
  match (s.dropWhile isPySpace).span Char.isDigit with
  | (ds, '.' :: rest) => if ds.isEmpty then none else some (rest.dropWhile isPySpace)
  | _ => false |> fun _ => none

/-- The split delimiter `(?:^|\n)\s*[-â€¢*]\s*|\n\s*\d+\.\s*` tried at one
position: alternative 1 anchored by `^` applies only at position 0
(`atStart`); both alternatives then try a literal newline anchor. -/
def delimAt (atStart : Bool) (s : Str) : Option Str :=
  match (if atStart then matchBullet s else none) with
  | some r => some r
  | none =>
    match s with
    | '\n' :: r =>
      (match matchBullet r with
       | some x => some x
       | none => matchNum r)
    | _ => none

/-- Left-to-right scan of `re.split`: emit the piece collected so far at every
delimiter match and continue after it.  Every delimiter consumes at least one
character, so fuel `length + 1` always suffices. -/
def splitItemsGo : Nat → Bool → Str → Str → List Str
  | 0, _, _, cur => [cur.reverse]
  | fuel + 1, atStart, rem, cur =>
    match delimAt atStart rem with
    | some rest => cur.reverse :: splitItemsGo fuel false rest []
    | none =>
      match rem with
      | [] => [cur.reverse]
      | c :: rest => splitItemsGo fuel false rest (c :: cur)

/-- `re.split(r"(?:^|\n)\s*[-â€¢*]\s*|\n\s*\d+\.\s*", content)`. -/
def splitItems (content : Str) : List Str :=
  splitItemsGo (content.length + 1) true content []

/-- First match of `TICKET_PATTERN = ([A-Z]+-\d+)` (group 1).  Leftmost match
start; at a position the greedy uppercase run is forced maximal (a shorter
run is followed by an uppercase letter, not `-`) and the digit run is greedy. -/
def findTicket : Str → Option Str
  | [] => none
  | c :: rest =>
    match (c :: rest).span isAsciiUpper with
    | (us, '-' :: r2) =>
      if us.isEmpty then findTicket rest
      else
        match r2.span Char.isDigit with
        | (ds, _) => if ds.isEmpty then findTicket rest else some (us ++ '-' :: ds)
    | _ => findTicket rest

/-- Group 1 of the first match of `PR_PATTERN = (?:PR\s*)?#(\d+)`.  Every
match contains a `#` immediately followed by a digit and the captured group
is the maximal digit run after that `#`; conversely the earliest such `#`
yields the leftmost match (the optional `PR\s*` prefix never changes which
`#` is matched, only where the match starts).  So the group of the first
match is the digit run after the first `#` followed by a digit. -/
def findPR : Str → Option Str
  | [] => none
  | '#' :: rest =>
    (match rest.span Char.isDigit with
     | (ds, _) => if ds.isEmpty then findPR rest else some ds)
  | _ :: rest => findPR rest

/-- Group 1 of the first match of `ASSIGNEE_PATTERN = @([A-Za-z]+(?:\s+[A-Za-z]+)?)`:
the first `@` followed by a letter starts the match; the group is the greedy
letter run, extended by a whitespace run and a second letter run when both
are nonempty. -/
def assigneeGroup (rest : Str) : Option Str :=
  let w1 := rest.takeWhile isAsciiLetter
  let r1 := rest.dropWhile isAsciiLetter
  if w1.isEmpty then none
  else
    let ws := r1.takeWhile isPySpace
    let r2 := r1.dropWhile isPySpace
    if ws.isEmpty then some w1
    else
      let w2 := r2.takeWhile isAsciiLetter
      if w2.isEmpty then some w1
      else some (w1 ++ ws ++ w2)

/-- Return the first alternative when it matched, else keep scanning. -/
def orElseScan (o : Option Str) (k : Option Str) : Option Str :=
  match o with
  | some g => some g
  | none => k

def findAssignee : Str → Option Str
  | [] => none
  | c :: rest =>
    if c = '@' then orElseScan (assigneeGroup rest) (findAssignee rest)
    else findAssignee rest

/-- `ASSIGNEE_PATTERN.sub("", s)`: delete every (non-overlapping, leftmost,
greedy) assignee-mention match.  Each step consumes at least one character,
so fuel `length + 1` suffices. -/
def subAssigneeGo : Nat → Str → Str
  | 0, s => s
  | fuel + 1, s =>
    match s with
    | [] => []
    | '@' :: rest =>
      (match rest.span isAsciiLetter with
       | ([], _) => '@' :: subAssigneeGo fuel rest
       | (_, r1) =>
         match r1.span isPySpace with
         | ([], _) => subAssigneeGo fuel r1
         | (_, r2) =>
           match r2.span isAsciiLetter with
           | ([], _) => subAssigneeGo fuel r1
           | (_, r3) => subAssigneeGo fuel r3)
    | c :: rest => c :: subAssigneeGo fuel rest

/-- `ASSIGNEE_PATTERN.sub("", s)`. -/
def subAssignee (s : Str) : Str := subAssigneeGo (s.length + 1) s

/-- The trailing-dash class `[-â€“â€”]` as it literally stands in the
(mojibake) source: `-`, U+00E2, U+20AC, U+201C, U+201D. -/
def isDashCh (c : Char) : Bool :=
  c = '-' || c = chA || c = chEuro || c = chLdq || c = chRdq

/-- Does `\s*[-â€“â€”]\s*$` match the whole of `s`?  (Greedy `\s*` runs are
deterministic; the trailing `\s*` can always absorb a final newline, so the
`$`-before-final-newline case adds nothing.) -/
def wsDashWsEnd (s : Str) : Bool :=
  match s.dropWhile isPySpace with
  | d :: rest => isDashCh d && rest.all isPySpace
  | [] => false

/-- `re.sub(r"\s*[-â€“â€”]\s*$", "", s)`: delete the suffix starting at the
leftmost position whose entire remaining text matches the pattern. -/
def subTrailDash : Str → Str
  | [] => []
  | c :: rest => if wsDashWsEnd (c :: rest) then [] else c :: subTrailDash rest

/-- The per-item body of the `_parse_tasks` loop: strip the fragment, drop it
when shorter than 5 characters, extract ticket/PR/assignee, clean the
description (remove assignee mentions, strip, remove a trailing dash, strip),
and drop the item when the description ends up empty.  The status is set to
`DONE` with the source comment "Will be set by caller". -/
def make_task (defaultAssignee : Str) (frag : Str) : Option Task :=
  let item := pyStrip frag
  if item.length < 5 then none
  else
    let desc := pyStrip (subTrailDash (pyStrip (subAssignee item)))
    if desc.isEmpty then none
    else
      some { description := desc,
             assignee := (findAssignee item).getD defaultAssignee,
             status := TaskStatus.done,
             ticket_id := findTicket item,
             pr_number := findPR item }

/-- `MessageParser._parse_tasks`. -/
def parse_tasks (content : Str) (defaultAssignee : Str) : List Task :=
  (splitItems content).filterMap (make_task defaultAssignee)

/-! ### `MessageParser.parse_message` -/

/-- The per-section branch of `parse_message`: store the extracted tasks in
the field named by the section key (descriptions only, for blockers). -/
def applySection (author : Str) (st : DailyStatus) (e : Str × Str) : DailyStatus :=
  let tasks := parse_tasks e.2 author
  if e.1 = doneKey then { st with done := tasks }
  else if e.1 = inProgressKey then { st with in_progress := tasks }
  else if e.1 = plannedKey then { st with planned := tasks }
  else if e.1 = blockersKey then { st with blockers := tasks.map (·.description) }
  else st

/-- `MessageParser.parse_message`. -/
def parse_message (msg : SlackMessage) : Option DailyStatus :=
  if !is_status_update msg.text then none
  else
    some ((split_into_sections msg.text).foldl (applySection msg.user_name)
      { author := msg.user_name, date := msg.timestamp, raw_text := msg.text })

/-! ### Aggregator (`StatusAggregator`) -/

/-- The aggregated dictionary built by `StatusAggregator.aggregate`. -/
structure Aggregated where
  done : List (Str × List Task) := []
  in_progress : List (Str × List Task) := []
  planned : List (Str × List Task) := []
  blockers : List Str := []
  notes : List Str := []
  authors : List Str := []
  dateStart : Option PyDateTime := none
  dateEnd : Option PyDateTime := none
deriving DecidableEq, Repr

/-- Append one task to its bucket of its assignee, creating the (dict) entry at
the end on first sight of the assignee. -/
def pushA : List (Str × List Task) → Task → List (Str × List Task)
  | [], t => [(t.assignee, [t])]
  | (k, l) :: rest, t =>
    if k = t.assignee then (k, l ++ [t]) :: rest else (k, l) :: pushA rest t

/-- Append a task list into the per-assignee buckets. -/
def foldAdd (m : List (Str × List Task)) (ts : List Task) : List (Str × List Task) :=
  ts.foldl pushA m

/-- The per-status body of the aggregation loop: record the author, extend
the date range with `min`/`max`, append tasks per assignee, extend blockers
and notes.  (`authors` is a Python set; modelled as first-occurrence order.) -/
def addStatus (agg : Aggregated) (s : DailyStatus) : Aggregated :=
  { agg with
    authors := if s.author ∈ agg.authors then agg.authors else agg.authors ++ [s.author],
    dateStart := some (match agg.dateStart with
                       | none => s.date
                       | some d0 => if s.date.ord < d0.ord then s.date else d0),
    dateEnd := some (match agg.dateEnd with
                     | none => s.date
                     | some d0 => if d0.ord < s.date.ord then s.date else d0),
    done := foldAdd agg.done s.done,
    in_progress := foldAdd agg.in_progress s.in_progress,
    planned := foldAdd agg.planned s.planned,
    blockers := agg.blockers ++ s.blockers,
    notes := agg.notes ++ s.notes }

/-- The insertion phase of `aggregate`, before `_deduplicate_tasks`. -/
def insertPhase (statuses : List DailyStatus) : Aggregated :=
  statuses.foldl addStatus {}

/-- Python `.lower().strip()[:50]` description normalization of
`_deduplicate_tasks`. -/
def normDesc (d : Str) : Str := (pyStrip (toLowerPy d)).take 50

/-- The per-bucket loop of `_deduplicate_tasks`: ticket ids and normalized
descriptions are tracked in separate seen sets; an item with a ticket id is
kept iff the ticket is new, an item without one iff its normalized
description is new. -/
def dedupGo : List Str → List Str → List Task → List Task
  | _, _, [] => []
  | seenT, seenD, t :: ts =>
    match t.ticket_id with
    | some tid =>
      if tid ∈ seenT then dedupGo seenT seenD ts
      else t :: dedupGo (tid :: seenT) seenD ts
    | none =>
      let n := normDesc t.description
      if n ∈ seenD then dedupGo seenT seenD ts
      else t :: dedupGo seenT (n :: seenD) ts

/-- `_deduplicate_tasks` applied to one `(category, assignee)` bucket. -/
def deduplicate_bucket (ts : List Task) : List Task := dedupGo [] [] ts

/-- `_deduplicate_tasks` over a whole category dict. -/
def mapDedup (m : List (Str × List Task)) : List (Str × List Task) :=
  m.map (fun e => (e.1, deduplicate_bucket e.2))

/-- First-occurrence deduplication, modelling `list(set(...))` for blockers
and notes (CPython set order is unspecified; no claim depends on it). -/
def dedupFirstGo (seen : List Str) : List Str → List Str
  | [] => []
  | x :: rest =>
    if x ∈ seen then dedupFirstGo seen rest else x :: dedupFirstGo (x :: seen) rest

/-- `StatusAggregator.aggregate`: insertion phase followed by the
deduplication pass. -/
def aggregate (statuses : List DailyStatus) : Aggregated :=
  let a := insertPhase statuses
  { a with
    done := mapDedup a.done,
    in_progress := mapDedup a.in_progress,
    planned := mapDedup a.planned,
    blockers := dedupFirstGo [] a.blockers,
    notes := dedupFirstGo [] a.notes }

/-! ### Categorizer (`ReportGenerator._categorize_tasks`) -/

/-- The fallback category label. -/
def otherName : Str := "Other".toList

/-- `category_keywords` of `_categorize_tasks`, in source (dict insertion)
order. -/
def categoryKeywords : List (Str × List Str) :=
  [ ("Feature Development".toList,
     ["feature", "implement", "add", "create", "build", "develop",
      "show", "display", "handle", "print", "export", "v2-", "v1-"].map String.toList),
    ("Bug Fixes".toList,
     ["fix", "bug", "issue", "error", "patch", "resolve", "correct"].map String.toList),
    ("Code & Infrastructure".toList,
     ["refactor", "clean", "remove", "update", "deploy", "infrastructure",
      "database", "api", "config", "setup", "pr", "code review",
      "swagger", "postman", "dump", "migration"].map String.toList),
    ("Documentation".toList,
     ["doc", "readme", "comment", "guide", "tutorial", "overview"].map String.toList),
    ("New Team Member Onboarding".toList,
     ["onboard", "setup", "environment", "local", "new team", "welcome",
      "training", "overview session", "familiarization"].map String.toList) ]

/-- All category labels in output (dict creation) order, `Other` last. -/
def allCatNames : List Str := categoryKeywords.map (·.1) ++ [otherName]

/-- Does some keyword of the list hit the task (case-insensitive substring of
the description or of the ticket id, `(ticket_id or "").lower()`)? -/
def taskMatchesCat (t : Task) (kws : List Str) : Bool :=
  kws.any (fun k =>
    listContains (toLowerPy t.description) k ||
    listContains (toLowerPy (t.ticket_id.getD [])) k)

/-- The category a task is assigned to: first keyword list (in source order)
with a hit, else `Other`. -/
def categoryOf (t : Task) : Str :=
  match categoryKeywords.find? (fun p => taskMatchesCat t p.2) with
  | some p => p.1
  | none => otherName

/-- The per-category assignee dict produced by the categorization loop: each
assignee keeps (in input order) the tasks assigned to this category, and an
assignee with no such task gets no entry. -/
def restrictCat (tasksBy : List (Str × List Task)) (c : Str) : List (Str × List Task) :=
  (tasksBy.map (fun e => (e.1, e.2.filter (fun t => decide (categoryOf t = c))))).filter
    (fun e => !e.2.isEmpty)

/-- `ReportGenerator._categorize_tasks`: fixed category order, first hit
wins, empty categories removed from the result. -/
def categorize_tasks (tasksBy : List (Str × List Task)) :
    List (Str × List (Str × List Task)) :=
  (allCatNames.map (fun c => (c, restrictCat tasksBy c))).filter (fun p => !p.2.isEmpty)

/-! ### Report formatter (`ReportGenerator`) -/

/-- Constructor configuration of `ReportGenerator`. -/
structure RGenCfg where
  sender_name : Str := "Report Generator".toList
  sender_email : Str := []
  recipients_to : List Str := []
  recipients_cc : List Str := []
deriving DecidableEq, Repr

/-- `ReportGenerator._format_task`. -/
def format_task (t : Task) : Str :=
  joinSep (" ".toList)
    ((match t.ticket_id with
      | some tid => [tid ++ ":".toList]
      | none => []) ++
     [t.description] ++
     (match t.pr_number with
      | some pr => ["- PR #".toList ++ pr]
      | none => []) ++
     ["- @".toList ++ t.assignee])

/-- `ReportGenerator._generate_header` (with `datetime.now()` passed in). -/
def generate_header (g : RGenCfg) (now : PyDateTime) (agg : Aggregated) : Str :=
  let dateRange :=
    match agg.dateStart, agg.dateEnd with
    | some s, some e => s.fmtMonthDay ++ " to ".toList ++ e.fmtMonthDayYear
    | _, _ => "the current week ending ".toList ++ now.fmtMonthDayYear
  let senderLine :=
    if g.sender_email.isEmpty then g.sender_name
    else g.sender_name ++ " <".toList ++ g.sender_email ++ ">".toList
  joinNl
    ([senderLine, now.fmtHeaderNow] ++
     (if g.recipients_to.isEmpty then []
      else ["to: ".toList ++ joinSep (", ".toList) g.recipients_to]) ++
     (if g.recipients_cc.isEmpty then []
      else ["cc: ".toList ++ joinSep (", ".toList) g.recipients_cc]) ++
     [[], "Hi all,".toList, [], "Hope you are doing well!".toList, [],
      "Please find below the End of Week Update covering the period from ".toList ++
        dateRange ++ ":".toList,
      []])

/-- `ReportGenerator._generate_notes_section`. -/
def generate_notes_section (agg : Aggregated) (additional : List Str) : Str :=
  let notes := agg.notes ++ additional
  joinNl
    (["1. NOTES".toList] ++
     (if notes.isEmpty then ["- No special notes this week".toList]
      else notes.map (fun n => "- ".toList ++ n)) ++
     [[]])

/-- `ReportGenerator._generate_done_section`. -/
def generate_done_section (agg : Aggregated) : Str :=
  if agg.done.isEmpty then
    joinNl ["2. DONE".toList, "- No completed tasks this week".toList, []]
  else
    joinNl
      (["2. DONE".toList] ++
       (categorize_tasks agg.done).flatMap (fun e =>
         if e.2.isEmpty then []
         else ('\n' :: e.1) :: [] :: e.2.flatMap (fun ae => ae.2.map format_task)) ++
       [[]])

/-- `ReportGenerator._generate_in_progress_section`. -/
def generate_in_progress_section (agg : Aggregated) : Str :=
  if agg.in_progress.isEmpty then
    joinNl ["3. IN PROGRESS".toList, "- No tasks currently in progress".toList, []]
  else
    joinNl
      (["3. IN PROGRESS".toList] ++
       agg.in_progress.flatMap (fun ae => ae.2.map format_task) ++ [[]])

/-- `ReportGenerator._generate_next_plan_section`. -/
def generate_next_plan_section (agg : Aggregated) : Str :=
  if agg.planned.isEmpty then
    joinNl ["4. NEXT PLAN".toList, "- Planning to continue with assigned tasks".toList, []]
  else
    joinNl
      (["4. NEXT PLAN".toList] ++
       agg.planned.flatMap (fun ae => ae.2.map format_task) ++ [[]])

/-- `ReportGenerator._generate_blockers_section`. -/
def generate_blockers_section (agg : Aggregated) : Str :=
  joinNl
    (["5. QUESTIONS/BLOCKERS".toList] ++
     (if agg.blockers.isEmpty then ["- No blockers this week".toList]
      else agg.blockers.map (fun b => "- ".toList ++ b)) ++
     [[]])

/-- `ReportGenerator._generate_footer`. -/
def generate_footer (g : RGenCfg) : Str :=
  joinNl
    ["Please let us know if you have any questions or concerns.".toList, [],
     "Thanks and Best regards,".toList, g.sender_name]

/-- The literal text of the empty report before the interpolated timestamp. -/
def emptyReportPrefix : Str :=
  "No status updates found for this week.\n\nPlease ensure team members have posted their daily status updates in the Slack channel.\n\nGenerated on: ".toList

/-- `ReportGenerator._generate_empty_report` (with `datetime.now()` passed in). -/
def generate_empty_report (now : PyDateTime) : Str :=
  emptyReportPrefix ++ now.fmtEmptyNow ++ "\n".toList

/-- `ReportGenerator.generate`: empty-input short circuit, else aggregate and
render the six blocks, joining the non-empty parts with newlines
(`"\n".join(filter(None, report_parts))`). -/
def generate (g : RGenCfg) (now : PyDateTime) (statuses : List DailyStatus)
    (notes : List Str) : Str :=
  if statuses.isEmpty then generate_empty_report now
  else
    let agg := aggregate statuses
    joinSep ("\n".toList)
      (([generate_header g now agg,
         generate_notes_section agg notes,
         generate_done_section agg,
         generate_in_progress_section agg,
         generate_next_plan_section agg,
         generate_blockers_section agg,
         generate_footer g]).filter (fun p => !p.isEmpty))

/-! ### Specification-side definitions (worded from the claims, for
refinement comparisons) -/

/-- Claim C3 wording of the list-structure signal: a line beginning,
optionally after whitespace, with a bullet marker `-`, `•` (U+2022), `*`, or
`N.` numbering. -/
def claimBulletOrNum (l : Str) : Bool :=
  match l.dropWhile isPySpace with
  | [] => false
  | c :: rest =>
    c = '-' || c = Char.ofNat 0x2022 || c = '*' ||
      (match (c :: rest).span Char.isDigit with
       | (ds, '.' :: _) => !ds.isEmpty
       | _ => false)

/-- Claim C3 list-structure signal over the whole text. -/
def claimListSignal (text : Str) : Bool := (splitNl text).any claimBulletOrNum

/-- The number of claim-C3 signals that hold (signals 1, 3, 4 as in the
code, signal 2 as the claim words it). -/
def claimSignalCount (text : Str) : Nat :=
  bNat (hasSections text) + bNat (claimListSignal text) +
    bNat (ticketSearch text) + bNat (decide (100 < text.length))

/-- Claim C4 wording of the keep decision: an item is kept iff it has a
ticket id no earlier item of the bucket had, or has none and no earlier
no-ticket item had the same normalized description prefix. -/
def keepNew (prev : List Task) (t : Task) : Bool :=
  match t.ticket_id with
  | some tid => !(prev.any (fun u => decide (u.ticket_id = some tid)))
  | none =>
    !(prev.any (fun u =>
      decide (u.ticket_id = none ∧ normDesc u.description = normDesc t.description)))

/-- Claim C4 deduplication: iterate in original order, keeping an item iff
`keepNew` holds of the items before it. -/
def specGo (prev : List Task) : List Task → List Task
  | [] => []
  | t :: ts =>
    if keepNew prev t then t :: specGo (prev ++ [t]) ts else specGo (prev ++ [t]) ts

/-- Claim C4 deduplication of one bucket. -/
def specDedup (ts : List Task) : List Task := specGo [] ts

/-- The contiguous header runs of a text: for each header line, the section
it announces together with the (possibly empty) list of content lines that
follow it up to the next header or end of input. -/
def runsGo : Option Str → List Str → List Str → List (Str × List Str)
  | cur, acc, [] =>
    (match cur with
     | some s => [(s, acc)]
     | none => [])
  | cur, acc, line :: rest =>
    match detectSection line with
    | some s2 =>
      (match cur with
       | some s => (s, acc) :: runsGo (some s2) [] rest
       | none => runsGo (some s2) [] rest)
    | none =>
      (match cur with
       | some _ => runsGo cur (acc ++ [line]) rest
       | none => runsGo cur acc rest)

/-- All header runs of a text. -/
def runsOf (text : Str) : List (Str × List Str) := runsGo none [] (splitNl text)

/-- The content of the last run for section `S` that captured at least one
line (the run a non-flushing header cannot overwrite). -/
def lastNE : List (Str × List Str) → Str → Option (List Str)
  | [], _ => none
  | r :: rs, S =>
    match lastNE rs S with
    | some x => some x
    | none => if r.1 = S ∧ r.2 ≠ [] then some r.2 else none

/-- The content of the last run for section `S`, empty or not — the value
claim C8 asserts the splitter returns. -/
def lastRunAll : List (Str × List Str) → Str → Option (List Str)
  | [], _ => none
  | r :: rs, S =>
    match lastRunAll rs S with
    | some x => some x
    | none => if r.1 = S then some r.2 else none

/-- Fold a run-content into a lookup fallback (statement helper for the
splitter characterization). -/
def orLookup (o : Option (List Str)) (d : Option Str) : Option Str :=
  match o with
  | some c => some (joinNl c)
  | none => d

/-- Claim C9 wording: text contains `@` followed by a capitalized word
(the mention the claim says the assignee is extracted from). -/
def hasCapMention : Str → Bool
  | [] => false
  | '@' :: c :: rest => isAsciiUpper c || hasCapMention (c :: rest)
  | _ :: rest => hasCapMention rest

/-- Does the text start with an ASCII letter? -/
def headIsLetter (s : Str) : Bool := !(s.takeWhile isAsciiLetter).isEmpty

/-- Text contains `@` immediately followed by an ASCII letter — exactly when
`ASSIGNEE_PATTERN` has a match. -/
def hasMention : Str → Bool
  | [] => false
  | c :: rest => (c = '@' && headIsLetter rest) || hasMention rest

/-- The five section headers of the report body (claim C7). -/
def sectionHeaderStrs : List Str :=
  ["1. NOTES", "2. DONE", "3. IN PROGRESS", "4. NEXT PLAN",
   "5. QUESTIONS/BLOCKERS"].map String.toList

/-- For each section header, a character occurring in it but neither in the
literal text of the empty report nor in any `%B %d, %Y at %I:%M %p`
timestamp rendering: `T`, `E`, `R`, `X`, `Q` respectively.  (A rendering
consists of a month name — one leading uppercase among `J F M A S O N D`,
lowercase letters otherwise — digits, comma, space, `at`, colon, and
`AM`/`PM`, so it never contains an uppercase `T`, `E`, `R`, `X` or `Q`.) -/
def headerMarkChars : List Char := ['T', 'E', 'R', 'X', 'Q']

/-- `optApp o l`: the bucket lookup after appending the tasks `l` for one
assignee (statement helper for the aggregation lemmas). -/
def optApp (o : Option (List Task)) (l : List Task) : Option (List Task) :=
  if o = none ∧ l = [] then none else some (o.getD [] ++ l)

/-! ### Concrete inputs used by counterexamples, code evaluations and
witnesses -/

/-- A classified message with an in-progress section (claim C1). -/
def msgC1 : SlackMessage :=
  { user_name := "Carol".toList,
    text := "Done:\nIn Progress:\n- Working on V2-102".toList,
    timestamp := {} }

/-- The example message text of claim C2. -/
def textC2 : Str :=
  "Done: Fixed login bug V2-101 @Alice\nIn Progress: Working on V2-102 @Bob".toList

/-- The done-section content claim C2 says the splitter produces. -/
def doneContentC2 : Str := "Fixed login bug V2-101 @Alice".toList

/-- A text with an `N.`-numbered line and a ticket id, but below the length
threshold and with no section keywords (claim C3 counterexample). -/
def textC3 : Str := "1. ABC-123".toList

/-- A text whose `done` header recurs with an empty second run (claim C8
counterexample). -/
def textC8 : Str := "done:\nAlpha\ndone:\nplanned:\nBuild thing".toList

/-- A fragment whose only assignee mention is uncapitalized (claim C9
counterexample). -/
def fragC9 : Str := "Fixed the build @bob".toList

/-- Default assignee used in the claim C9 counterexample. -/
def danaStr : Str := "Dana".toList

/-- A classified message with a blockers section (claim C10 witness). -/
def msgC10 : SlackMessage :=
  { user_name := "Carol".toList,
    text := "Done:\n- Fixed V2-101\nBlocked:\n- Waiting on infra team".toList,
    timestamp := {} }

/-- The DailyStatus `parse_message` produces from `msgC10`. -/
def stC10 : DailyStatus :=
  { author := "Carol".toList, date := {},
    done := [{ description := "Fixed V2-101".toList, assignee := "Carol".toList,
               status := TaskStatus.done }],
    blockers := ["Waiting on infra team".toList],
    raw_text := msgC10.text }

/-- A generation timestamp for the claim C7 witness (a December one: the
month name shares no character with the marker set). -/
def nowC7 : PyDateTime := { fmtEmptyNow := "December 12, 2026 at 09:00 AM".toList }

/-- The feature-development example task of the spec (claim C6 witness). -/
def taskImpl : Task :=
  { description := "Implement new dashboard widget".toList,
    assignee := "Alice".toList, status := TaskStatus.done }

/-- The bug-fix example task of the spec (claim C6 witness). -/
def taskFix : Task :=
  { description := "Fix null pointer on checkout".toList,
    assignee := "Ben".toList, status := TaskStatus.done }

/-- Input buckets for the claim C6 witness. -/
def tasksByC6 : List (Str × List Task) :=
  [("Alice".toList, [taskImpl]), ("Ben".toList, [taskFix])]

/-- A daily status with one ticketed done-item (claim C5 has no hypotheses;
this input also illustrates the spec example for `V2-200`). -/
def statusC5 : DailyStatus :=
  { author := "Carol".toList, date := {},
    done := [{ description := "Ship export V2-200".toList,
               assignee := "Carol".toList, status := TaskStatus.done,
               ticket_id := some ("V2-200".toList) }] }

/-! ## Theorems -/

/-- Claim C1: the claim (and the source comment "Will be set by caller")
says every WorkItem in the `in_progress` list carries status `IN_PROGRESS`;
the code never reassigns the status `_parse_tasks` hard-codes, so on
`msgC1` the parsed in-progress item still carries `DONE`.  This theorem
evaluates the code at the failing input. -/
theorem c1_status_never_reassigned :
    (parse_message msgC1).map (fun st =>
      (st.in_progress.map (·.status), st.done.map (·.status),
       st.planned.map (·.status))) = some ([TaskStatus.done], [], []) ∧
    TaskStatus.done ≠ TaskStatus.in_progress := by
  exact ⟨rfl, by decide⟩

/-- Claim C2: on the spec example text the splitter returns the empty
mapping (a header line discards its own trailing content), and the extractor
run on the claimed done-content yields `ticket_id = none` (the pattern
`[A-Z]+-\d+` cannot match `V2-101`: a digit precedes the dash) with the
ticket text left inside the description.  This theorem evaluates the code at
the failing input of the claim. -/
theorem c2_example_evaluation :
    split_into_sections textC2 = [] ∧
    parse_tasks doneContentC2 ("Bob".toList) =
      [{ description := "Fixed login bug V2-101".toList,
         assignee := "Alice".toList, status := TaskStatus.done,
         ticket_id := none, pr_number := none }] ∧
    findTicket doneContentC2 = none := by
  exact ⟨rfl, rfl, rfl⟩

/-- Claim C3 counterexample: `textC3` has an `N.`-numbered line and a ticket
id, hence 2 signals as the claim words them, yet `is_status_update` returns
false (the code requires whitespace after the single marker character, so
`1.` is not a list signal for it). -/
theorem c3_counterexample :
    is_status_update textC3 = false ∧ 2 ≤ claimSignalCount textC3 := by
  exact ⟨rfl, by decide⟩

/-- Claim C8 counterexample: in `textC8` the `done` header occurs twice and
its last run captures no lines, so the claim forces `done ↦ ""`; the code
keeps the earlier captured content `"Alpha"` because an empty run never
flushes. -/
theorem c8_counterexample :
    2 ≤ (splitNl textC8).countP (fun l => decide (detectSection l = some doneKey)) ∧
    lastRunAll (runsOf textC8) doneKey = some [] ∧
    lookupA (split_into_sections textC8) doneKey = some ("Alpha".toList) ∧
    ("Alpha".toList : Str) ≠ [] := by
  exact ⟨by decide, rfl, rfl, by decide⟩

/-- Claim C9 counterexample: `fragC9` contains no `@`-mention of a
capitalized word, so the claim forces the default assignee `Dana`; the code
regex `@([A-Za-z]+(?:\s+[A-Za-z]+)?)` accepts any letter case and extracts
`bob`. -/
theorem c9_counterexample :
    hasCapMention fragC9 = false ∧
    (parse_tasks fragC9 danaStr).map (·.assignee) = ["bob".toList] ∧
    ("bob".toList : Str) ≠ danaStr := by
  exact ⟨rfl, rfl, by decide⟩

/-- Looking up the key just written by `setA` yields the written value. -/
theorem lookupA_setA_self (m : List (Str × Str)) (k v : Str) :
    lookupA (setA m k v) k = some v := by
  induction m with
  | nil => simp [setA, lookupA]
  | cons e rest ih =>
    obtain ⟨k1, v1⟩ := e
    by_cases h1 : k1 = k
    · simp [setA, h1, lookupA]
    · simp [setA, h1, lookupA, ih]

/-- `setA` does not disturb lookups of other keys. -/
theorem lookupA_setA_ne (m : List (Str × Str)) (k v S : Str) (h : S ≠ k) :
    lookupA (setA m k v) S = lookupA m S := by
  induction m with
  | nil =>
    simp only [setA, lookupA]
    rw [if_neg (fun hh => h hh.symm)]
  | cons e rest ih =>
    obtain ⟨k1, v1⟩ := e
    by_cases h1 : k1 = k
    · subst h1
      simp only [setA, if_pos rfl, lookupA]
      rw [if_neg (fun hh => h hh.symm), if_neg (fun hh => h hh.symm)]
    · simp only [setA, if_neg h1, lookupA]
      by_cases h2 : k1 = S <;> simp [h2, ih]

/-- Characterization of the section-splitter loop: from any intermediate
state, a lookup in the final dict returns the joined content of the last
line-capturing run for that section, falling back to the incoming dict. -/
theorem splitGo_lookup (S : Str) :
    ∀ (lines : List Str) (secs : List (Str × Str)) (cur : Option Str) (acc : List Str),
      lookupA (splitGo secs cur acc lines) S =
        orLookup (lastNE (runsGo cur acc lines) S) (lookupA secs S) := by
  intro lines
  induction lines with
  | nil =>
    intro secs cur acc
    cases cur with
    | none => simp [splitGo, runsGo, lastNE, orLookup]
    | some s =>
      by_cases ha : acc.isEmpty
      · rw [List.isEmpty_iff] at ha
        subst ha
        simp [splitGo, runsGo, lastNE, orLookup]
      · have hne : acc ≠ [] := by
          intro hh
          rw [hh] at ha
          exact ha rfl
        simp only [splitGo, runsGo, lastNE, orLookup, ha, Bool.false_eq_true,
          if_false]
        by_cases hs : s = S
        · subst hs
          rw [lookupA_setA_self]
          simp [hne]
        · rw [lookupA_setA_ne _ _ _ _ (fun hh => hs hh.symm)]
          simp [hs]
  | cons line rest ih =>
    intro secs cur acc
    cases hd : detectSection line with
    | some s2 =>
      cases cur with
      | none =>
        simp only [splitGo, hd, runsGo]
        exact ih secs (some s2) []
      | some s =>
        simp only [splitGo, hd, runsGo]
        rw [ih]
        cases hln : lastNE (runsGo (some s2) [] rest) S with
        | some c => simp [lastNE, hln, orLookup]
        | none =>
          simp only [lastNE, hln, orLookup]
          by_cases ha : acc.isEmpty
          · rw [List.isEmpty_iff] at ha
            subst ha
            simp
          · have hne : acc ≠ [] := by
              intro hh
              rw [hh] at ha
              exact ha rfl
            simp only [ha, Bool.false_eq_true, if_false]
            by_cases hs : s = S
            · subst hs
              rw [lookupA_setA_self]
              simp [hne]
            · rw [lookupA_setA_ne _ _ _ _ (fun hh => hs hh.symm)]
              simp [hs]
    | none =>
      cases cur with
      | some s =>
        simp only [splitGo, hd, runsGo]
        exact ih secs (some s) (acc ++ [line])
      | none =>
        simp only [splitGo, hd, runsGo]
        exact ih secs none acc

/-- When no line is a header, the splitter adds nothing. -/
theorem splitGo_no_header :
    ∀ (lines : List Str) (secs : List (Str × Str)) (acc : List Str),
      (∀ l ∈ lines, detectSection l = none) → splitGo secs none acc lines = secs := by
  intro lines
  induction lines with
  | nil => intro secs acc _; simp [splitGo]
  | cons line rest ih =>
    intro secs acc h
    have hd : detectSection line = none := h line (List.mem_cons_self _ _)
    simp only [splitGo, hd]
    exact ih secs acc (fun l hl => h l (List.mem_cons_of_mem _ hl))

/-- Claim C8 (amended): for every text and section name `S`, the splitter
result maps `S` to the joined content lines of the last contiguous run under
an `S` header that captured at least one line — a later `S` header restarts
collection but overwrites the earlier captured content only when at least
one content line follows it; and text before the first header line is
attached to no section (in particular a text with no header lines yields the
empty mapping). -/
theorem c8_amended (text : Str) (S : Str) :
    lookupA (split_into_sections text) S = (lastNE (runsOf text) S).map joinNl ∧
    ((∀ l ∈ splitNl text, detectSection l = none) → split_into_sections text = []) := by
  constructor
  · rw [split_into_sections, splitGo_lookup S (splitNl text) [] none [], runsOf]
    cases lastNE (runsGo none [] (splitNl text)) S with
    | some c => simp [orLookup]
    | none => simp [orLookup, lookupA]
  · intro h
    exact splitGo_no_header (splitNl text) [] [] h

/-- Witness for the amended claim C8, at a concrete header-free text. -/
theorem c8_amended_witness :
    lookupA (split_into_sections ("hello world".toList)) doneKey =
      (lastNE (runsOf ("hello world".toList)) doneKey).map joinNl ∧
    split_into_sections ("hello world".toList) = [] := by
  exact ⟨(c8_amended ("hello world".toList) doneKey).1,
         (c8_amended ("hello world".toList) doneKey).2 (by decide)⟩

/-- The seen-set loop of `_deduplicate_tasks` equals the claim-worded
prefix-based filter, given that the seen sets describe exactly the tickets
(resp. normalized descriptions of no-ticket items) of the items already
iterated. -/
theorem dedupGo_eq_specGo :
    ∀ (ts prev : List Task) (seenT seenD : List Str),
      (∀ tid, tid ∈ seenT ↔ ∃ u ∈ prev, u.ticket_id = some tid) →
      (∀ n, n ∈ seenD ↔ ∃ u ∈ prev, u.ticket_id = none ∧ normDesc u.description = n) →
      dedupGo seenT seenD ts = specGo prev ts := by
  intro ts
  induction ts with
  | nil => intro prev seenT seenD _ _; simp [dedupGo, specGo]
  | cons t ts ih =>
    intro prev seenT seenD hT hD
    cases ht : t.ticket_id with
    | some tid =>
      have hiffT : tid ∈ seenT ↔ keepNew prev t = false := by
        rw [hT]
        simp [keepNew, ht, List.any_eq_true]
      by_cases hmem : tid ∈ seenT
      · have hk : keepNew prev t = false := hiffT.mp hmem
        rw [show dedupGo seenT seenD (t :: ts) = dedupGo seenT seenD ts by
              simp [dedupGo, ht, hmem]]
        rw [show specGo prev (t :: ts) = specGo (prev ++ [t]) ts by
              simp [specGo, hk]]
        apply ih
        · intro tid'
          rw [hT tid']
          constructor
          · rintro ⟨u, hu, hut⟩
            exact ⟨u, List.mem_append_left _ hu, hut⟩
          · rintro ⟨u, hu, hut⟩
            rcases List.mem_append.mp hu with h | h
            · exact ⟨u, h, hut⟩
            · rw [List.mem_singleton] at h
              rw [h] at hut
              rw [ht] at hut
              obtain rfl := Option.some_inj.mp hut
              exact (hT tid).mp hmem
        · intro n
          rw [hD n]
          constructor
          · rintro ⟨u, hu, hut⟩
            exact ⟨u, List.mem_append_left _ hu, hut⟩
          · rintro ⟨u, hu, hut⟩
            rcases List.mem_append.mp hu with h | h
            · exact ⟨u, h, hut⟩
            · rw [List.mem_singleton] at h
              rw [h] at hut
              rw [ht] at hut
              exact absurd hut.1 (by simp)
      · have hk : keepNew prev t = true := by
          cases hkk : keepNew prev t
          · exact absurd (hiffT.mpr hkk) hmem
          · rfl
        rw [show dedupGo seenT seenD (t :: ts) = t :: dedupGo (tid :: seenT) seenD ts by
              simp [dedupGo, ht, hmem]]
        rw [show specGo prev (t :: ts) = t :: specGo (prev ++ [t]) ts by
              simp [specGo, hk]]
        congr 1
        apply ih
        · intro tid'
          simp only [List.mem_cons]
          constructor
          · rintro (rfl | hin)
            · exact ⟨t, List.mem_append_right _ (List.mem_singleton_self _), ht⟩
            · obtain ⟨u, hu, hut⟩ := (hT tid').mp hin
              exact ⟨u, List.mem_append_left _ hu, hut⟩
          · rintro ⟨u, hu, hut⟩
            rcases List.mem_append.mp hu with h | h
            · exact Or.inr ((hT tid').mpr ⟨u, h, hut⟩)
            · rw [List.mem_singleton] at h
              rw [h] at hut
              rw [ht] at hut
              exact Or.inl (Option.some_inj.mp hut).symm
        · intro n
          rw [hD n]
          constructor
          · rintro ⟨u, hu, hut⟩
            exact ⟨u, List.mem_append_left _ hu, hut⟩
          · rintro ⟨u, hu, hut⟩
            rcases List.mem_append.mp hu with h | h
            · exact ⟨u, h, hut⟩
            · rw [List.mem_singleton] at h
              rw [h] at hut
              rw [ht] at hut
              exact absurd hut.1 (by simp)
    | none =>
      have hiffD : normDesc t.description ∈ seenD ↔ keepNew prev t = false := by
        rw [hD]
        simp [keepNew, ht, List.any_eq_true]
      by_cases hmem : normDesc t.description ∈ seenD
      · have hk : keepNew prev t = false := hiffD.mp hmem
        rw [show dedupGo seenT seenD (t :: ts) = dedupGo seenT seenD ts by
              simp [dedupGo, ht, hmem]]
        rw [show specGo prev (t :: ts) = specGo (prev ++ [t]) ts by
              simp [specGo, hk]]
        apply ih
        · intro tid'
          rw [hT tid']
          constructor
          · rintro ⟨u, hu, hut⟩
            exact ⟨u, List.mem_append_left _ hu, hut⟩
          · rintro ⟨u, hu, hut⟩
            rcases List.mem_append.mp hu with h | h
            · exact ⟨u, h, hut⟩
            · rw [List.mem_singleton] at h
              rw [h] at hut
              rw [ht] at hut
              exact absurd hut (by simp)
        · intro n
          rw [hD n]
          constructor
          · rintro ⟨u, hu, hut⟩
            exact ⟨u, List.mem_append_left _ hu, hut⟩
          · rintro ⟨u, hu, hut⟩
            rcases List.mem_append.mp hu with h | h
            · exact ⟨u, h, hut⟩
            · rw [List.mem_singleton] at h
              rw [h] at hut
              obtain rfl := hut.2
              exact (hD _).mp hmem
      · have hk : keepNew prev t = true := by
          cases hkk : keepNew prev t
          · exact absurd (hiffD.mpr hkk) hmem
          · rfl
        rw [show dedupGo seenT seenD (t :: ts) =
              t :: dedupGo seenT (normDesc t.description :: seenD) ts by
              simp [dedupGo, ht, hmem]]
        rw [show specGo prev (t :: ts) = t :: specGo (prev ++ [t]) ts by
              simp [specGo, hk]]
        congr 1
        apply ih
        · intro tid'
          rw [hT tid']
          constructor
          · rintro ⟨u, hu, hut⟩
            exact ⟨u, List.mem_append_left _ hu, hut⟩
          · rintro ⟨u, hu, hut⟩
            rcases List.mem_append.mp hu with h | h
            · exact ⟨u, h, hut⟩
            · rw [List.mem_singleton] at h
              rw [h] at hut
              rw [ht] at hut
              exact absurd hut (by simp)
        · intro n
          simp only [List.mem_cons]
          constructor
          · rintro (rfl | hin)
            · exact ⟨t, List.mem_append_right _ (List.mem_singleton_self _), ht, rfl⟩
            · obtain ⟨u, hu, hut⟩ := (hD n).mp hin
              exact ⟨u, List.mem_append_left _ hu, hut⟩
          · rintro ⟨u, hu, hut⟩
            rcases List.mem_append.mp hu with h | h
            · exact Or.inr ((hD n).mpr ⟨u, h, hut⟩)
            · rw [List.mem_singleton] at h
              rw [h] at hut
              exact Or.inl hut.2.symm

/-- The code deduplication of a bucket equals the claim-worded filter. -/
theorem dedup_eq_spec (ts : List Task) : deduplicate_bucket ts = specDedup ts :=
  dedupGo_eq_specGo ts [] [] [] (by simp) (by simp)

/-- The spec filter distributes over append, threading the iterated prefix. -/
theorem specGo_append (l1 l2 prev : List Task) :
    specGo prev (l1 ++ l2) = specGo prev l1 ++ specGo (prev ++ l1) l2 := by
  induction l1 generalizing prev with
  | nil => simp [specGo]
  | cons t l1 ih =>
    simp only [List.cons_append, specGo]
    by_cases h : keepNew prev t
    · rw [if_pos h, if_pos h]
      simp only [List.append_eq]
      rw [ih (prev ++ [t])]
      simp [List.append_assoc]
    · rw [if_neg h, if_neg h]
      simp only [List.append_eq]
      rw [ih (prev ++ [t])]
      simp [List.append_assoc]

/-- A false keep decision stays false as the prefix grows. -/
theorem keepNew_false_mono (prev more : List Task) (t : Task)
    (h : keepNew prev t = false) : keepNew (prev ++ more) t = false := by
  cases ht : t.ticket_id <;>
    simp only [keepNew, ht, Bool.not_eq_false', List.any_append,
      Bool.or_eq_true] at h ⊢ <;>
    exact Or.inl h

/-- The spec filter drops everything when every item is already blocked. -/
theorem specGo_blocked :
    ∀ (l prev : List Task), (∀ t ∈ l, keepNew prev t = false) → specGo prev l = [] := by
  intro l
  induction l with
  | nil => intro prev _; rfl
  | cons t ts ih =>
    intro prev h
    have h1 := h t (List.mem_cons_self _ _)
    simp only [specGo, h1, Bool.false_eq_true, if_false]
    exact ih (prev ++ [t]) (fun u hu =>
      keepNew_false_mono prev [t] u (h u (List.mem_cons_of_mem _ hu)))

/-- An item occurring in the prefix is always blocked. -/
theorem keepNew_self_false (l : List Task) (t : Task) (h : t ∈ l) :
    keepNew l t = false := by
  cases ht : t.ticket_id with
  | some tid =>
    simp only [keepNew, ht, Bool.not_eq_false', List.any_eq_true]
    exact ⟨t, h, by simp [ht]⟩
  | none =>
    simp only [keepNew, ht, Bool.not_eq_false', List.any_eq_true]
    exact ⟨t, h, by simp [ht]⟩

/-- Deduplicating a bucket that repeats itself equals deduplicating it once. -/
theorem dedup_self_append (l : List Task) :
    deduplicate_bucket (l ++ l) = deduplicate_bucket l := by
  rw [dedup_eq_spec, dedup_eq_spec]
  show specGo [] (l ++ l) = specGo [] l
  rw [specGo_append]
  rw [specGo_blocked l ([] ++ l) (fun t htl => by
    simpa using keepNew_self_false l t htl)]
  simp

/-- Claim C4: within every `(category, assignee)` bucket the deduplication
pass keeps an item iff (a) its ticket id was not carried by any earlier item
of the bucket, or (b) it has no ticket id and no earlier no-ticket item of
the bucket has the same lower-cased, trimmed, 50-character description
prefix; first occurrence wins, and the two criteria are tracked separately
(`specDedup`/`keepNew` are the claim wording; `deduplicate_bucket` is the
code).  The aggregated result applies exactly this filter to every bucket
left by the insertion phase. -/
theorem c4_dedup_keeps_first_by_separate_criteria :
    (∀ ts : List Task, deduplicate_bucket ts = specDedup ts) ∧
    (∀ statuses : List DailyStatus,
      (aggregate statuses).done =
        (insertPhase statuses).done.map (fun e => (e.1, specDedup e.2)) ∧
      (aggregate statuses).in_progress =
        (insertPhase statuses).in_progress.map (fun e => (e.1, specDedup e.2)) ∧
      (aggregate statuses).planned =
        (insertPhase statuses).planned.map (fun e => (e.1, specDedup e.2))) := by
  refine ⟨dedup_eq_spec, fun statuses => ⟨?_, ?_, ?_⟩⟩ <;>
    simp [aggregate, mapDedup, dedup_eq_spec]

/-- Bucket lookup after `pushA`. -/
theorem lookupA_pushA (m : List (Str × List Task)) (t : Task) (a : Str) :
    lookupA (pushA m t) a =
      if a = t.assignee then some ((lookupA m a).getD [] ++ [t])
      else lookupA m a := by
  induction m with
  | nil =>
    by_cases h : a = t.assignee
    · simp [pushA, lookupA, h]
    · have hne : ¬t.assignee = a := fun hh => h hh.symm
      simp [pushA, lookupA, h, hne]
  | cons e rest ih =>
    obtain ⟨k1, l1⟩ := e
    by_cases h1 : k1 = t.assignee
    · subst h1
      by_cases h : a = t.assignee
      · simp [pushA, lookupA, h]
      · have hne : ¬t.assignee = a := fun hh => h hh.symm
        simp [pushA, lookupA, h, hne]
    · by_cases h : k1 = a
      · have hne2 : ¬a = t.assignee := fun hh => h1 (h.trans hh)
        simp [pushA, lookupA, h1, h, hne2]
      · simp [pushA, lookupA, h1, h, ih]

/-- Bucket lookup after appending a task list: the previous value extended by
the tasks of this assignee, the entry being created on demand. -/
theorem lookupA_foldAdd (ts : List Task) :
    ∀ (m : List (Str × List Task)) (a : Str),
      lookupA (foldAdd m ts) a =
        optApp (lookupA m a) (ts.filter (fun t => decide (t.assignee = a))) := by
  induction ts with
  | nil =>
    intro m a
    simp only [foldAdd, List.foldl_nil, List.filter_nil, optApp]
    cases lookupA m a <;> simp
  | cons t ts ih =>
    intro m a
    show lookupA (foldAdd (pushA m t) ts) a = _
    rw [ih, lookupA_pushA]
    by_cases h : t.assignee = a
    · rw [if_pos h.symm]
      rw [show (t :: ts).filter (fun t => decide (t.assignee = a)) =
            t :: ts.filter (fun t => decide (t.assignee = a)) by simp [List.filter_cons, h]]
      cases hm : lookupA m a <;>
        simp [optApp, List.append_assoc]
    · rw [if_neg (fun hh => h hh.symm)]
      rw [show (t :: ts).filter (fun t => decide (t.assignee = a)) =
            ts.filter (fun t => decide (t.assignee = a)) by simp [List.filter_cons, h]]

/-- Lookup commutes with the per-bucket deduplication map. -/
theorem lookupA_mapDedup (m : List (Str × List Task)) (a : Str) :
    lookupA (mapDedup m) a = (lookupA m a).map deduplicate_bucket := by
  induction m with
  | nil => simp [mapDedup, lookupA]
  | cons e rest ih =>
    obtain ⟨k1, l1⟩ := e
    show lookupA ((k1, deduplicate_bucket l1) :: mapDedup rest) a = _
    by_cases h : k1 = a
    · simp [lookupA, h]
    · simp [lookupA, h, ih]

/-- Claim C5: aggregating `[s, s]` yields the same per-category, per-assignee
bucket contents (same items, same order) as aggregating `[s]`. -/
theorem c5_aggregate_twice_eq_once (s : DailyStatus) (a : Str) :
    lookupA (aggregate [s, s]).done a = lookupA (aggregate [s]).done a ∧
    lookupA (aggregate [s, s]).in_progress a = lookupA (aggregate [s]).in_progress a ∧
    lookupA (aggregate [s, s]).planned a = lookupA (aggregate [s]).planned a := by
  have key : ∀ ts : List Task,
      lookupA (mapDedup (foldAdd (foldAdd [] ts) ts)) a =
        lookupA (mapDedup (foldAdd [] ts)) a := by
    intro ts
    rw [lookupA_mapDedup, lookupA_mapDedup, lookupA_foldAdd, lookupA_foldAdd]
    cases hf : ts.filter (fun t => decide (t.assignee = a)) with
    | nil => simp [lookupA, optApp]
    | cons x l =>
      rw [show optApp (lookupA ([] : List (Str × List Task)) a) (x :: l) =
            some (x :: l) by simp [optApp, lookupA]]
      rw [show optApp (some (x :: l)) (x :: l) = some ((x :: l) ++ (x :: l)) by
            simp [optApp]]
      rw [Option.map_some', Option.map_some', dedup_self_append]
  exact ⟨key s.done, key s.in_progress, key s.planned⟩

/-- `countP` only depends on pointwise values. -/
theorem countP_ext (l : List Str) (p q : Str → Bool) (h : ∀ x ∈ l, p x = q x) :
    l.countP p = l.countP q := by
  induction l with
  | nil => rfl
  | cons x xs ih =>
    rw [List.countP_cons, List.countP_cons, h x (List.mem_cons_self _ _),
      ih (fun y hy => h y (List.mem_cons_of_mem _ hy))]

/-- The substring scanner decides the infix relation. -/
theorem listContains_iff (l n : Str) : listContains l n = true ↔ n <:+: l := by
  induction l with
  | nil =>
    rw [show listContains [] n = n.isPrefixOf [] from rfl, List.isPrefixOf_iff_prefix]
    simp
  | cons c rest ih =>
    rw [show listContains (c :: rest) n =
          (n.isPrefixOf (c :: rest) || listContains rest n) from rfl]
    rw [Bool.or_eq_true, List.isPrefixOf_iff_prefix, ih, List.infix_cons_iff]

/-- `takeWhile`/`dropWhile` of a split whose left part satisfies the
predicate and whose right part starts by failing it. -/
theorem takeWhile_dropWhile_exact (p : Char → Bool) :
    ∀ (us rest : Str), (∀ c ∈ us, p c = true) →
      (∀ d rr, rest = d :: rr → p d = false) →
      (us ++ rest).takeWhile p = us ∧ (us ++ rest).dropWhile p = rest := by
  intro us
  induction us with
  | nil =>
    intro rest _ hr
    cases rest with
    | nil => simp
    | cons d rr =>
      have hd := hr d rr rfl
      simp [List.takeWhile_cons, List.dropWhile_cons, hd]
  | cons u us ih =>
    intro rest hall hr
    have hu : p u = true := hall u (List.mem_cons_self _ _)
    have h2 := ih rest (fun c hc => hall c (List.mem_cons_of_mem _ hc)) hr
    simp [List.takeWhile_cons, List.dropWhile_cons, hu, h2.1, h2.2]

/-- `ticketAt` holds exactly of strings beginning with a nonempty uppercase
run, a dash and a digit. -/
theorem ticketAt_iff (s : Str) :
    ticketAt s = true ↔
      ∃ us d r, s = us ++ '-' :: d :: r ∧ us ≠ [] ∧
        (∀ c ∈ us, isAsciiUpper c = true) ∧ d.isDigit = true := by
  constructor
  · intro h
    unfold ticketAt at h
    rw [List.span_eq_take_drop] at h
    cases hd : s.dropWhile isAsciiUpper with
    | nil => rw [hd] at h; exact absurd h (by simp)
    | cons d0 rest2 =>
      cases rest2 with
      | nil => rw [hd] at h; exact absurd h (by simp)
      | cons d1 r =>
        rw [hd] at h
        simp only [Bool.and_eq_true, decide_eq_true_eq] at h
        obtain ⟨⟨hne, hdash⟩, hdig⟩ := h
        subst hdash
        refine ⟨s.takeWhile isAsciiUpper, d1, r, ?_, ?_, ?_, hdig⟩
        · conv_lhs => rw [← List.takeWhile_append_dropWhile (p := isAsciiUpper) (l := s)]
          rw [hd]
        · intro hh
          rw [hh] at hne
          exact absurd hne (by simp)
        · intro c hc
          exact List.mem_takeWhile_imp hc
  · rintro ⟨us, d, r, rfl, hne, hall, hdig⟩
    have hspan := takeWhile_dropWhile_exact isAsciiUpper us ('-' :: d :: r) hall
      (fun d0 rr hh => by
        obtain ⟨rfl, -⟩ := List.cons_eq_cons.mp hh
        rfl)
    unfold ticketAt
    rw [List.span_eq_take_drop, hspan.1, hspan.2]
    simp [hne, hdig]

/-- `re.search` of the ticket pattern succeeds exactly on texts containing an
`UPPERCASE-DIGITS` substring. -/
theorem ticketSearch_iff (cs : Str) :
    ticketSearch cs = true ↔
      ∃ pre us ds post, cs = pre ++ us ++ '-' :: (ds ++ post) ∧ us ≠ [] ∧
        (∀ c ∈ us, isAsciiUpper c = true) ∧ ds ≠ [] ∧
        ∀ c ∈ ds, c.isDigit = true := by
  induction cs with
  | nil =>
    simp only [ticketSearch]
    constructor
    · intro h; exact absurd h (by simp)
    · rintro ⟨pre, us, ds, post, hh, hne, -, -, -⟩
      exact absurd hh (by
        intro hcontra
        have := congrArg List.length hcontra
        simp at this
        obtain ⟨u0, us', rfl⟩ := List.exists_cons_of_ne_nil hne
        simp at this
        omega)
  | cons c rest ih =>
    rw [show ticketSearch (c :: rest) = (ticketAt (c :: rest) || ticketSearch rest)
        from rfl, Bool.or_eq_true, ticketAt_iff, ih]
    constructor
    · rintro (⟨us, d, r, hh, hne, hall, hdig⟩ | ⟨pre, us, ds, post, hh, hne, hall, hdne, hdall⟩)
      · exact ⟨[], us, [d], r, by simpa using hh, hne, hall, by simp,
          by simpa using hdig⟩
      · exact ⟨c :: pre, us, ds, post, by simp [hh], hne, hall, hdne, hdall⟩
    · rintro ⟨pre, us, ds, post, hh, hne, hall, hdne, hdall⟩
      cases pre with
      | nil =>
        left
        obtain ⟨d0, ds', rfl⟩ := List.exists_cons_of_ne_nil hdne
        refine ⟨us, d0, ds' ++ post, by simpa using hh, hne, hall,
          hdall d0 (List.mem_cons_self _ _)⟩
      | cons p0 pre' =>
        right
        simp only [List.cons_append] at hh
        obtain ⟨-, hh2⟩ := List.cons_eq_cons.mp hh
        exact ⟨pre', us, ds, post, hh2, hne, hall, hdne, hdall⟩

/-- The newline-anchored scan finds a match exactly when some position after
a newline matches the bullet signal. -/
theorem bulletSigAfterNl_iff (cs : Str) :
    bulletSigAfterNl cs = true ↔
      ∃ q suf, cs = q ++ '\n' :: suf ∧ bulletSigAt suf = true := by
  induction cs with
  | nil =>
    simp only [bulletSigAfterNl]
    constructor
    · intro h; exact absurd h (by simp)
    · rintro ⟨q, suf, hh, -⟩
      exact absurd hh (by simp)
  | cons c rest ih =>
    rw [show bulletSigAfterNl (c :: rest) =
          ((c = '\n' && bulletSigAt rest) || bulletSigAfterNl rest) from rfl,
      Bool.or_eq_true, Bool.and_eq_true, ih]
    constructor
    · rintro (⟨hc, hb⟩ | ⟨q, suf, rfl, hb⟩)
      · rw [decide_eq_true_eq] at hc
        subst hc
        exact ⟨[], rest, rfl, hb⟩
      · exact ⟨c :: q, suf, rfl, hb⟩
    · rintro ⟨q, suf, hh, hb⟩
      cases q with
      | nil =>
        obtain ⟨rfl, rfl⟩ := List.cons_eq_cons.mp hh
        exact Or.inl ⟨by simp, hb⟩
      | cons q0 q' =>
        obtain ⟨rfl, hh2⟩ := List.cons_eq_cons.mp hh
        exact Or.inr ⟨q', suf, hh2, hb⟩

/-- Claim C3 (amended): `is_status_update` returns true iff at least 2 of the
4 signals hold, where signals 1, 3, 4 are as the claim words them (signal 1:
at least 2 keywords occur as substrings of the lowercased text; signal 3: an
`UPPERCASE-DIGITS` substring exists; signal 4: length exceeds 100), and
signal 2 — amended — is: some position at the start of the text or after a
newline carries optional whitespace, then a single character among `-`,
U+00E2, U+20AC, U+00A2, `*`, a digit or `.`, then at least one whitespace
character (the characters the mojibake source file literally puts in the
class; in particular `N.` numbering without a following blank and the true
bullet U+2022 do not count). -/
theorem c3_amended (text : Str) :
    (is_status_update text = true ↔
      2 ≤ bNat (hasSections text) + bNat (hasLists text) + bNat (ticketSearch text) +
        bNat (decide (100 < text.length))) ∧
    (hasSections text = true ↔
      2 ≤ sectionKeywords.countP (fun kw => decide (kw <:+: toLowerPy text))) ∧
    (ticketSearch text = true ↔
      ∃ pre us ds post, text = pre ++ us ++ '-' :: (ds ++ post) ∧ us ≠ [] ∧
        (∀ c ∈ us, isAsciiUpper c = true) ∧ ds ≠ [] ∧
        ∀ c ∈ ds, c.isDigit = true) ∧
    (hasLists text = true ↔
      (bulletSigAt text = true ∨
        ∃ q suf, text = q ++ '\n' :: suf ∧ bulletSigAt suf = true)) := by
  refine ⟨by rw [is_status_update, decide_eq_true_iff], ?_, ticketSearch_iff text, ?_⟩
  · rw [hasSections, decide_eq_true_iff,
      countP_ext sectionKeywords _ _ (fun kw _ => ?_)]
    rw [Bool.eq_iff_iff, decide_eq_true_iff]
    exact listContains_iff (toLowerPy text) kw
  · rw [hasLists, Bool.or_eq_true, bulletSigAfterNl_iff]

/-- The chosen category label is always one of the six output labels. -/
theorem categoryOf_mem_allCatNames (t : Task) : categoryOf t ∈ allCatNames := by
  unfold categoryOf
  cases hf : categoryKeywords.find? (fun p => taskMatchesCat t p.2) with
  | none => simp [allCatNames, otherName]
  | some p =>
    exact List.mem_append_left _
      (List.mem_map_of_mem _ (List.mem_of_find?_eq_some hf))

/-- Membership in a per-category assignee dict produced by the categorizer. -/
theorem mem_restrictCat {tasksBy : List (Str × List Task)} {c : Str}
    {e : Str × List Task} (h : e ∈ restrictCat tasksBy c) :
    e.2 ≠ [] ∧ ∃ ts, (e.1, ts) ∈ tasksBy ∧
      e.2 = ts.filter (fun t => decide (categoryOf t = c)) := by
  unfold restrictCat at h
  obtain ⟨hmem, hne⟩ := List.mem_filter.mp h
  obtain ⟨e0, he0, heq⟩ := List.mem_map.mp hmem
  obtain ⟨a0, ts0⟩ := e0
  subst heq
  refine ⟨?_, ts0, he0, rfl⟩
  simpa using hne

/-- Membership in the categorizer output determines the category dict. -/
theorem mem_categorize {tasksBy : List (Str × List Task)} {c : Str}
    {m : List (Str × List Task)} (h : (c, m) ∈ categorize_tasks tasksBy) :
    c ∈ allCatNames ∧ m = restrictCat tasksBy c ∧ m ≠ [] := by
  unfold categorize_tasks at h
  obtain ⟨hmem, hne⟩ := List.mem_filter.mp h
  obtain ⟨c0, hc0, heq⟩ := List.mem_map.mp hmem
  injection heq with h1 h2
  subst h1
  subst h2
  exact ⟨hc0, rfl, by simpa using hne⟩

/-- A nonempty category dict appears in the categorizer output. -/
theorem categorize_mem_of (tasksBy : List (Str × List Task)) (c : Str)
    (hc : c ∈ allCatNames) (hne : restrictCat tasksBy c ≠ []) :
    (c, restrictCat tasksBy c) ∈ categorize_tasks tasksBy := by
  unfold categorize_tasks
  exact List.mem_filter.mpr
    ⟨List.mem_map_of_mem (fun c => (c, restrictCat tasksBy c)) hc, by simpa using hne⟩

/-- Claim C6: categorization of done items is total and exclusive — every
item of every input bucket lands in the output exactly under the label
`categoryOf`, which is the first category (in the fixed order) whose keyword
list hits the description or ticket id case-insensitively, `Other` when none
hits — and the output only carries nonempty categories and nonempty
per-assignee entries. -/
theorem c6_categorize_total_exclusive
    (tasksBy : List (Str × List Task)) (a : Str) (ts : List Task) (t : Task)
    (hmem : (a, ts) ∈ tasksBy) (ht : t ∈ ts) :
    (categoryOf t ∈ allCatNames ∧
     (∃ m, (categoryOf t, m) ∈ categorize_tasks tasksBy ∧
        ∃ ts', (a, ts') ∈ m ∧ t ∈ ts') ∧
     (∀ c m, (c, m) ∈ categorize_tasks tasksBy →
        ∀ ts', (a, ts') ∈ m → t ∈ ts' → c = categoryOf t)) ∧
    (∀ c m, (c, m) ∈ categorize_tasks tasksBy → m ≠ [] ∧ ∀ e ∈ m, e.2 ≠ []) ∧
    (categoryOf t ≠ otherName →
      ∃ kws, (categoryOf t, kws) ∈ categoryKeywords ∧ taskMatchesCat t kws = true) ∧
    ((∀ p ∈ categoryKeywords, taskMatchesCat t p.2 = false) →
      categoryOf t = otherName) := by
  refine ⟨⟨categoryOf_mem_allCatNames t, ?_, ?_⟩, ?_, ?_, ?_⟩
  · -- existence
    have htf : t ∈ ts.filter (fun u => decide (categoryOf u = categoryOf t)) :=
      List.mem_filter.mpr ⟨ht, by simp⟩
    have hentry : (a, ts.filter (fun u => decide (categoryOf u = categoryOf t))) ∈
        restrictCat tasksBy (categoryOf t) := by
      unfold restrictCat
      refine List.mem_filter.mpr ⟨List.mem_map.mpr ⟨(a, ts), hmem, rfl⟩, ?_⟩
      have hne0 : ts.filter (fun u => decide (categoryOf u = categoryOf t)) ≠ [] := by
        intro hh
        rw [hh] at htf
        exact absurd htf (List.not_mem_nil _)
      simpa using hne0
    have hnemp : restrictCat tasksBy (categoryOf t) ≠ [] := by
      intro hh
      rw [hh] at hentry
      exact absurd hentry (List.not_mem_nil _)
    exact ⟨restrictCat tasksBy (categoryOf t),
      categorize_mem_of tasksBy (categoryOf t) (categoryOf_mem_allCatNames t) hnemp,
      _, hentry, htf⟩
  · -- exclusivity
    intro c m hcm ts' hts' htts'
    obtain ⟨-, hm, -⟩ := mem_categorize hcm
    subst hm
    obtain ⟨-, ts0, -, hf⟩ := mem_restrictCat hts'
    rw [show ((a, ts') : Str × List Task).2 = ts' from rfl] at hf
    subst hf
    have := (List.mem_filter.mp htts').2
    simpa [eq_comm] using this
  · -- nonemptiness of output entries
    intro c m hcm
    obtain ⟨-, hm, hne⟩ := mem_categorize hcm
    subst hm
    exact ⟨hne, fun e he => (mem_restrictCat he).1⟩
  · -- non-Other labels come with a hitting keyword list
    intro hno
    unfold categoryOf at hno ⊢
    cases hf : categoryKeywords.find? (fun p => taskMatchesCat t p.2) with
    | none => rw [hf] at hno; exact absurd rfl hno
    | some p =>
      obtain ⟨p1, p2⟩ := p
      exact ⟨p2, List.mem_of_find?_eq_some hf, by
        simpa using List.find?_some hf⟩
  · -- no hit anywhere forces Other
    intro hall
    unfold categoryOf
    rw [List.find?_eq_none.mpr (fun p hp => by simp [hall p hp])]

/-- Witness for claim C6 at the two spec example descriptions. -/
theorem c6_categorize_witness :
    categoryOf taskImpl = "Feature Development".toList ∧
    categoryOf taskFix = "Bug Fixes".toList ∧
    (∃ m, (categoryOf taskImpl, m) ∈ categorize_tasks tasksByC6 ∧
      ∃ ts', ("Alice".toList, ts') ∈ m ∧ taskImpl ∈ ts') := by
  refine ⟨rfl, rfl, ?_⟩
  exact ((c6_categorize_total_exclusive tasksByC6 ("Alice".toList) [taskImpl]
    taskImpl (by decide) (by decide)).1).2.1

/-- Claim C7: `generate` on the empty status sequence returns exactly the
empty-state report — the literal no-status-updates text plus the generation
timestamp — performing none of the aggregation/categorization/rendering of
the non-empty branch, and it contains the phrase `No status updates found`;
moreover, whenever the timestamp string avoids the marker characters
`T E R X Q` (every `%B %d, %Y at %I:%M %p` rendering of every month does:
month names carry an uppercase letter only from `J F M A S O N D`), none of
the five section headers occurs in the output. -/
theorem c7_empty_input (g : RGenCfg) (now : PyDateTime) (extra : List Str) :
    generate g now [] extra = generate_empty_report now ∧
    ("No status updates found".toList <:+: generate g now [] extra) ∧
    ((∀ c ∈ headerMarkChars, c ∉ now.fmtEmptyNow) →
      ∀ hd ∈ sectionHeaderStrs, ¬(hd <:+: generate g now [] extra)) := by
  have h0 : generate g now [] extra = generate_empty_report now := rfl
  refine ⟨h0, ?_, ?_⟩
  · rw [h0]
    have h1 : "No status updates found".toList <+: emptyReportPrefix := by decide
    have h2 : "No status updates found".toList <+:
        emptyReportPrefix ++ now.fmtEmptyNow :=
      h1.trans (List.prefix_append _ _)
    have h3 : "No status updates found".toList <+:
        emptyReportPrefix ++ now.fmtEmptyNow ++ "\n".toList :=
      h2.trans (List.prefix_append _ _)
    exact h3.isInfix
  · intro h hd hmem hinf
    rw [h0] at hinf
    have hsub : ∀ c, c ∈ hd → c ∈ generate_empty_report now :=
      fun c hc => hinf.subset hc
    have hkill : ∀ c, c ∈ headerMarkChars → c ∈ hd → False := by
      intro c hc hchd
      have hcm := hsub c hchd
      unfold generate_empty_report at hcm
      simp only [List.mem_append] at hcm
      rcases hcm with (hx | hx) | hx
      · fin_cases hc <;> exact absurd hx (by decide)
      · exact h c hc hx
      · fin_cases hc <;> exact absurd hx (by decide)
    fin_cases hmem
    · exact hkill 'T' (by decide) (by decide)
    · exact hkill 'E' (by decide) (by decide)
    · exact hkill 'R' (by decide) (by decide)
    · exact hkill 'X' (by decide) (by decide)
    · exact hkill 'Q' (by decide) (by decide)

/-- Witness for claim C7 at a concrete December timestamp. -/
theorem c7_empty_input_witness :
    generate {} nowC7 [] [] = generate_empty_report nowC7 ∧
    ("No status updates found".toList <:+: generate {} nowC7 [] []) ∧
    ∀ hd ∈ sectionHeaderStrs, ¬(hd <:+: generate {} nowC7 [] []) :=
  ⟨(c7_empty_input {} nowC7 []).1, (c7_empty_input {} nowC7 []).2.1,
   (c7_empty_input {} nowC7 []).2.2 (by decide)⟩

/-- `dropWhile` is idempotent. -/
theorem dropWhile_dropWhile (p : Char → Bool) (l : Str) :
    (l.dropWhile p).dropWhile p = l.dropWhile p := by
  induction l with
  | nil => rfl
  | cons c rest ih =>
    by_cases hc : p c
    · simp [List.dropWhile_cons, hc, ih]
    · simp [List.dropWhile_cons, hc]

/-- A prefix of a list with no leading `p`-run has no leading `p`-run. -/
theorem dropWhile_eq_self_of_prefix (p : Char → Bool) {l w : Str}
    (hl : l.dropWhile p = l) (hw : w <+: l) : w.dropWhile p = w := by
  cases w with
  | nil => rfl
  | cons c wrest =>
    cases l with
    | nil => simp at hw
    | cons d lrest =>
      obtain ⟨t, ht⟩ := hw
      rw [List.cons_append] at ht
      obtain ⟨rfl, -⟩ := List.cons_eq_cons.mp ht
      have hpc : p c = false := by
        by_contra hpc
        rw [Bool.not_eq_false] at hpc
        rw [List.dropWhile_cons, if_pos hpc] at hl
        have hlen := congrArg List.length hl
        have hle := (List.dropWhile_suffix (l := lrest) p).sublist.length_le
        simp at hlen
        omega
      rw [List.dropWhile_cons, if_neg (by simp [hpc])]

/-- Python `strip` is idempotent. -/
theorem pyStrip_idem (s : Str) : pyStrip (pyStrip s) = pyStrip s := by
  unfold pyStrip
  set a := s.dropWhile isPySpace with ha
  set b := (a.reverse.dropWhile isPySpace).reverse with hb
  have f1 : a.dropWhile isPySpace = a := dropWhile_dropWhile _ s
  have f2 : b.reverse.dropWhile isPySpace = b.reverse := by
    rw [hb, List.reverse_reverse]
    exact dropWhile_dropWhile _ a.reverse
  have f3 : b <+: a := by
    rw [← List.reverse_suffix, hb, List.reverse_reverse]
    exact List.dropWhile_suffix _
  have f4 : b.dropWhile isPySpace = b := dropWhile_eq_self_of_prefix _ f1 f3
  rw [f4, f2, List.reverse_reverse]

/-- The assignee group matches after `@` exactly when a letter follows. -/
theorem assigneeGroup_isSome_eq (rest : Str) :
    (assigneeGroup rest).isSome = headIsLetter rest := by
  simp only [assigneeGroup, headIsLetter]
  split_ifs with h1 h2 h3 <;> simp [h1]

/-- The assignee regex has a match exactly when the text contains `@`
immediately followed by an ASCII letter. -/
theorem findAssignee_isSome_eq_hasMention :
    ∀ cs : Str, (findAssignee cs).isSome = hasMention cs := by
  intro cs
  induction cs with
  | nil => rfl
  | cons c rest ih =>
    simp only [findAssignee, hasMention]
    by_cases hc : c = '@'
    · subst hc
      rw [if_pos rfl]
      have hag := assigneeGroup_isSome_eq rest
      cases hg : assigneeGroup rest with
      | some g =>
        rw [hg] at hag
        simp [orElseScan, ← hag]
      | none =>
        rw [hg] at hag
        simp [orElseScan, ← hag, ih]
    · rw [if_neg hc]
      simp [hc, ih]

/-- A fragment shorter than 5 characters after stripping yields no item. -/
theorem make_task_short (d frag : Str) (h : (pyStrip frag).length < 5) :
    make_task d frag = none := by
  simp [make_task, h]

/-- Every produced item has a nonempty, trim-stable description. -/
theorem make_task_desc {d frag : Str} {t : Task} (h : make_task d frag = some t) :
    t.description ≠ [] ∧ pyStrip t.description = t.description := by
  unfold make_task at h
  by_cases h5 : (pyStrip frag).length < 5
  · rw [if_pos h5] at h
    exact absurd h (by simp)
  · rw [if_neg h5] at h
    by_cases hd : (pyStrip (subTrailDash (pyStrip (subAssignee (pyStrip frag))))).isEmpty
    · rw [if_pos hd] at h
      exact absurd h (by simp)
    · rw [if_neg hd] at h
      obtain rfl := Option.some_inj.mp h
      refine ⟨by simpa [List.isEmpty_iff] using hd, ?_⟩
      exact pyStrip_idem _

/-- The assignee recorded in a produced item is the regex extraction from
its stripped fragment, defaulting when the regex has no match. -/
theorem make_task_assignee {d frag : Str} {t : Task}
    (h : make_task d frag = some t) :
    t.assignee = (findAssignee (pyStrip frag)).getD d := by
  unfold make_task at h
  by_cases h5 : (pyStrip frag).length < 5
  · rw [if_pos h5] at h
    exact absurd h (by simp)
  · rw [if_neg h5] at h
    by_cases hd : (pyStrip (subTrailDash (pyStrip (subAssignee (pyStrip frag))))).isEmpty
    · rw [if_pos hd] at h
      exact absurd h (by simp)
    · rw [if_neg hd] at h
      obtain rfl := Option.some_inj.mp h
      rfl

/-- Claim C9 (amended): for every fragment the extractor turns into a
WorkItem, the assignee is the group of the first `ASSIGNEE_PATTERN` match in
the stripped fragment — `@` followed by a run of ASCII letters of either
case, greedily extended by a whitespace run and a second letter run when
present — and the given default exactly when the fragment contains no `@`
followed by a letter. -/
theorem c9_amended :
    (∀ (content d : Str) (t : Task), t ∈ parse_tasks content d →
      ∃ frag ∈ splitItems content,
        t.assignee = (findAssignee (pyStrip frag)).getD d) ∧
    (∀ cs : Str, (findAssignee cs).isSome = hasMention cs) := by
  constructor
  · intro content d t ht
    unfold parse_tasks at ht
    obtain ⟨frag, hfrag, hmk⟩ := List.mem_filterMap.mp ht
    exact ⟨frag, hfrag, make_task_assignee hmk⟩
  · exact findAssignee_isSome_eq_hasMention

/-- Witness for the amended claim C9 at the concrete fragment. -/
theorem c9_amended_witness :
    ∃ frag ∈ splitItems fragC9,
      ({ description := "Fixed the build".toList, assignee := "bob".toList,
         status := TaskStatus.done, ticket_id := none,
         pr_number := none } : Task).assignee =
        (findAssignee (pyStrip frag)).getD danaStr :=
  c9_amended.1 fragC9 danaStr _ (by decide)

/-- Keys reachable in `setA` output. -/
theorem mem_keys_setA {m : List (Str × Str)} {k v x : Str}
    (h : x ∈ (setA m k v).map Prod.fst) : x ∈ m.map Prod.fst ∨ x = k := by
  induction m with
  | nil =>
    refine Or.inr ?_
    simpa [setA] using h
  | cons e rest ih =>
    obtain ⟨k1, v1⟩ := e
    by_cases h1 : k1 = k
    · simp only [setA, if_pos h1, List.map_cons, List.mem_cons] at h ⊢
      rcases h with h | h
      · exact Or.inr h
      · exact Or.inl (Or.inr h)
    · simp only [setA, if_neg h1, List.map_cons, List.mem_cons] at h ⊢
      rcases h with h | h
      · exact Or.inl (Or.inl h)
      · rcases ih h with h2 | h2
        · exact Or.inl (Or.inr h2)
        · exact Or.inr h2

/-- `setA` preserves distinctness of dict keys. -/
theorem setA_keys_nodup (m : List (Str × Str)) (k v : Str)
    (h : (m.map Prod.fst).Nodup) : ((setA m k v).map Prod.fst).Nodup := by
  induction m with
  | nil => simp [setA]
  | cons e rest ih =>
    obtain ⟨k1, v1⟩ := e
    simp only [List.map_cons, List.nodup_cons] at h
    by_cases h1 : k1 = k
    · subst h1
      have hset : setA ((k1, v1) :: rest) k1 v = (k1, v) :: rest := by
        simp [setA]
      rw [hset]
      simp only [List.map_cons, List.nodup_cons]
      exact h
    · simp only [setA, if_neg h1, List.map_cons, List.nodup_cons]
      refine ⟨?_, ih h.2⟩
      intro hmem
      rcases mem_keys_setA hmem with h2 | h2
      · exact h.1 h2
      · exact h1 h2

/-- The splitter keeps dict keys distinct. -/
theorem splitGo_keys_nodup :
    ∀ (lines : List Str) (secs : List (Str × Str)) (cur : Option Str)
      (acc : List Str), (secs.map Prod.fst).Nodup →
      ((splitGo secs cur acc lines).map Prod.fst).Nodup := by
  intro lines
  induction lines with
  | nil =>
    intro secs cur acc h
    cases cur with
    | none => simpa [splitGo] using h
    | some s =>
      by_cases ha : acc.isEmpty
      · simpa [splitGo, ha] using h
      · simpa [splitGo, ha] using setA_keys_nodup secs s (joinNl acc) h
  | cons line rest ih =>
    intro secs cur acc h
    cases hd : detectSection line with
    | some s2 =>
      cases cur with
      | none =>
        simp only [splitGo, hd]
        exact ih secs (some s2) [] h
      | some s =>
        simp only [splitGo, hd]
        by_cases ha : acc.isEmpty
        · simp only [ha, if_true]
          exact ih secs (some s2) [] h
        · simp only [ha, Bool.false_eq_true, if_false]
          exact ih (setA secs s (joinNl acc)) (some s2) []
            (setA_keys_nodup secs s (joinNl acc) h)
    | none =>
      cases cur with
      | some s =>
        simp only [splitGo, hd]
        exact ih secs (some s) (acc ++ [line]) h
      | none =>
        simp only [splitGo, hd]
        exact ih secs none acc h

/-- A key absent from the dict looks up to `none`. -/
theorem lookupA_eq_none_of_not_mem {α : Type} (m : List (Str × α)) (x : Str)
    (h : x ∉ m.map Prod.fst) : lookupA m x = none := by
  induction m with
  | nil => rfl
  | cons e rest ih =>
    obtain ⟨k1, v1⟩ := e
    simp only [List.map_cons, List.mem_cons, not_or] at h
    simp only [lookupA, if_neg (fun hh : k1 = x => h.1 hh.symm)]
    exact ih h.2

/-- A section entry with a non-blockers key leaves the blockers field alone. -/
theorem applySection_blockers_ne (author : Str) (st : DailyStatus)
    (e : Str × Str) (hne : e.1 ≠ blockersKey) :
    (applySection author st e).blockers = st.blockers := by
  unfold applySection
  by_cases h1 : e.1 = doneKey
  · rw [if_pos h1]
  · rw [if_neg h1]
    by_cases h2 : e.1 = inProgressKey
    · rw [if_pos h2]
    · rw [if_neg h2]
      by_cases h3 : e.1 = plannedKey
      · rw [if_pos h3]
      · rw [if_neg h3, if_neg hne]

/-- The section fold of `parse_message` sets the blockers field from the
blockers section content, when the section keys are distinct. -/
theorem foldl_applySection_blockers :
    ∀ (secs : List (Str × Str)) (author : Str) (st0 : DailyStatus),
      (secs.map Prod.fst).Nodup →
      (secs.foldl (applySection author) st0).blockers =
        (match lookupA secs blockersKey with
         | some c => (parse_tasks c author).map (·.description)
         | none => st0.blockers) := by
  intro secs
  induction secs with
  | nil => intro author st0 _; rfl
  | cons e rest ih =>
    intro author st0 h
    obtain ⟨k1, c1⟩ := e
    simp only [List.map_cons, List.nodup_cons] at h
    rw [List.foldl_cons]
    by_cases hk : k1 = blockersKey
    · rw [ih author _ h.2]
      have hlk : lookupA rest blockersKey = none :=
        lookupA_eq_none_of_not_mem rest blockersKey (hk ▸ h.1)
      rw [hlk]
      have happ : (applySection author st0 (k1, c1)).blockers =
          (parse_tasks c1 author).map (·.description) := by
        unfold applySection
        rw [if_neg (by rw [show ((k1, c1) : Str × Str).1 = k1 from rfl, hk]; decide),
          if_neg (by rw [show ((k1, c1) : Str × Str).1 = k1 from rfl, hk]; decide),
          if_neg (by rw [show ((k1, c1) : Str × Str).1 = k1 from rfl, hk]; decide),
          if_pos hk]
      rw [happ]
      rw [show lookupA ((k1, c1) :: rest) blockersKey = some c1 by
        simp [lookupA, hk]]
    · rw [ih author _ h.2, applySection_blockers_ne author st0 (k1, c1) hk]
      rw [show lookupA ((k1, c1) :: rest) blockersKey = lookupA rest blockersKey by
        simp [lookupA, hk]]

/-- Claim C10: for every message `parse_message` accepts, the blockers list
is exactly the descriptions of the items the extractor parses from the
blockers section content (empty when there is no such section); hence every
blocker is nonempty and stable under trimming, and any fragment whose
trimmed text is shorter than 5 characters contributes nothing. -/
theorem c10_blockers_from_extractor (msg : SlackMessage) (st : DailyStatus)
    (h : parse_message msg = some st) :
    (st.blockers =
      match lookupA (split_into_sections msg.text) blockersKey with
      | some c => (parse_tasks c msg.user_name).map (·.description)
      | none => []) ∧
    (∀ b ∈ st.blockers, b ≠ [] ∧ pyStrip b = b) ∧
    (∀ d frag : Str, (pyStrip frag).length < 5 → make_task d frag = none) := by
  have hnodup : ((split_into_sections msg.text).map Prod.fst).Nodup :=
    splitGo_keys_nodup (splitNl msg.text) [] none [] (by simp)
  unfold parse_message at h
  by_cases hsu : is_status_update msg.text
  · rw [if_neg (by simp [hsu])] at h
    obtain rfl := Option.some_inj.mp h
    have hfold := foldl_applySection_blockers (split_into_sections msg.text)
      msg.user_name
      { author := msg.user_name, date := msg.timestamp, raw_text := msg.text }
      hnodup
    refine ⟨hfold, ?_, make_task_short⟩
    intro b hb
    rw [hfold] at hb
    cases hlk : lookupA (split_into_sections msg.text) blockersKey with
    | none =>
      rw [hlk] at hb
      exact absurd hb (List.not_mem_nil _)
    | some c =>
      rw [hlk] at hb
      obtain ⟨t, htm, hdesc⟩ := List.mem_map.mp hb
      obtain ⟨frag, -, hmk⟩ := List.mem_filterMap.mp htm
      obtain ⟨h1, h2⟩ := make_task_desc hmk
      exact ⟨hdesc ▸ h1, hdesc ▸ h2⟩
  · rw [if_pos (by simp [hsu])] at h
    exact absurd h (by simp)

/-- Witness for claim C10 at a concrete classified message. -/
theorem c10_blockers_witness :
    parse_message msgC10 = some stC10 ∧
    stC10.blockers =
      (match lookupA (split_into_sections msgC10.text) blockersKey with
       | some c => (parse_tasks c msgC10.user_name).map (·.description)
       | none => []) ∧
    ∀ b ∈ stC10.blockers, b ≠ [] ∧ pyStrip b = b := by
  refine ⟨rfl, ?_, ?_⟩
  · exact (c10_blockers_from_extractor msgC10 stC10 rfl).1
  · exact (c10_blockers_from_extractor msgC10 stC10 rfl).2.1

end ReportGen
